import Mathlib

/-!
Verification of the mneme ingestion/retrieval pipeline.

This file shallowly embeds the parts of the Go source that the verified
properties are about.  Go strings that undergo textual processing (word
splitting, trimming, paragraph splitting, lexicographic date comparison)
are modelled as `List Char`; opaque strings (error messages, the embedding
model name) stay `String`.  Go `strings.Fields`, `strings.TrimSpace`,
`strings.Split` and byte-wise string comparison are re-implemented on
`List Char` with matching semantics.  Database tables are modelled as
lists of row records and SQL statements as the corresponding list
transformations; a SQLite transaction is modelled by threading a snapshot
store that only replaces the persistent store at the commit point.
-/

namespace Mneme

/-! ### Text primitives (`strings` package operations on `List Char`) -/

/-- White-space test used by `strings.Fields` / `strings.TrimSpace`
(`unicode.IsSpace`); modelled by `Char.isWhitespace`. -/
def ws (c : Char) : Bool := c.isWhitespace

/-- Word-count accumulator: counts maximal runs of non-white-space
characters.  The `Bool` state records whether we are inside a word. -/
def wcAux : Bool → List Char → Nat
  | _, [] => 0
  | inWord, c :: cs =>
    if ws c then wcAux false cs
    else (if inWord then 0 else 1) + wcAux true cs

/-- `len(strings.Fields(s))`: the number of white-space-separated words. -/
def wordCount (l : List Char) : Nat := wcAux false l

/-- Drop leading white space. -/
def trimLeft (l : List Char) : List Char := l.dropWhile ws

/-- Drop trailing white space. -/
def trimRight (l : List Char) : List Char := (l.reverse.dropWhile ws).reverse

/-- `strings.TrimSpace`. -/
def trimSpace (l : List Char) : List Char := trimRight (trimLeft l)

/-- `strings.Split(s, "\n\n")`: split on each non-overlapping occurrence of
a blank line, scanning left to right. -/
def splitPara : List Char → List (List Char)
  | [] => [[]]
  | '\n' :: '\n' :: rest => [] :: splitPara rest
  | c :: rest =>
    match splitPara rest with
    | [] => [[c]]
    | piece :: more => (c :: piece) :: more

/-- `strings.Join(parts, "\n\n")`. -/
def joinParts : List (List Char) → List Char
  | [] => []
  | [p] => p
  | p :: ps => p ++ '\n' :: '\n' :: joinParts ps

/-- `strings.Split(s, string(sep))` for a one-character separator. -/
def splitOnChar (sep : Char) : List Char → List (List Char)
  | [] => [[]]
  | c :: rest =>
    if c = sep then [] :: splitOnChar sep rest
    else
      match splitOnChar sep rest with
      | [] => [[c]]
      | piece :: more => (c :: piece) :: more

/-- `strings.SplitN(s, "=", 2)`: one or two pieces, cut at the first `=`. -/
def splitN2Eq : List Char → List (List Char)
  | [] => [[]]
  | c :: rest =>
    if c = '=' then [[], rest]
    else
      match splitN2Eq rest with
      | [] => [[c]]
      | piece :: more => (c :: piece) :: more

/-- `strings.ToLower` (ASCII case folding, via `Char.toLower`). -/
def lowerStr (l : List Char) : List Char := l.map Char.toLower

/-! ### Markdown chunker (`part_005`: `Section`, `ChunkData`, `ChunkSection`) -/

/-- `type Section struct` of `part_005`. -/
structure Section where
  Title : List Char
  HeaderLevel : Nat
  ParentTitle : List Char
  Content : List Char
  Sequence : Nat
  ValidAt : List Char
deriving DecidableEq

/-- `type ChunkData struct` of `part_005`. -/
structure ChunkData where
  Text : List Char
  SourceFile : List Char
  SectionTitle : List Char
  HeaderLevel : Nat
  ParentTitle : List Char
  SectionSequence : Nat
  ChunkSequence : Nat
  ChunkTotal : Nat
  ValidAt : List Char
deriving DecidableEq

/-- `flushChunk` closure of `ChunkSection`: emit the joined current parts
unless there are none. -/
def flushChunk (cur acc : List (List Char)) : List (List Char) :=
  if cur = [] then acc else acc ++ [joinParts cur]

/-- The paragraph loop of `ChunkSection` (`part_005` lines 216–233): greedy
packing of trimmed, non-empty paragraphs into chunks of at most `maxWords`
words, an oversize paragraph arriving on an empty buffer becoming its own
chunk, followed by the final `flushChunk()`. -/
def packParas (maxWords : Nat) :
    List (List Char) → List (List Char) → Nat → List (List Char) → List (List Char)
  | [], cur, _, acc => flushChunk cur acc
  | p :: rest, cur, curW, acc =>
    let t := trimSpace p
    if t = [] then packParas maxWords rest cur curW acc
    else
      let w := wordCount t
      if curW = 0 ∧ maxWords < w then packParas maxWords rest cur curW (acc ++ [t])
      else if maxWords < curW + w then packParas maxWords rest [t] w (flushChunk cur acc)
      else packParas maxWords rest (cur ++ [t]) (curW + w) acc

/-- `ChunkSection(section, maxWords)` (`part_005` lines 181–250). -/
def ChunkSection (s : Section) (maxWords : Nat) : List ChunkData :=
  if wordCount s.Content ≤ maxWords then
    [{ Text := trimSpace s.Content, SourceFile := [], SectionTitle := s.Title,
       HeaderLevel := s.HeaderLevel, ParentTitle := s.ParentTitle,
       SectionSequence := s.Sequence, ChunkSequence := 1, ChunkTotal := 1,
       ValidAt := s.ValidAt }]
  else
    let chunkTexts := packParas maxWords (splitPara s.Content) [] 0 []
    chunkTexts.enum.map (fun it =>
      { Text := it.2, SourceFile := [], SectionTitle := s.Title,
        HeaderLevel := s.HeaderLevel, ParentTitle := s.ParentTitle,
        SectionSequence := s.Sequence, ChunkSequence := it.1 + 1,
        ChunkTotal := chunkTexts.length, ValidAt := s.ValidAt })

/-! ### Semantic retriever (`search.go`) -/

/-- `type SearchResult struct` of `search.go`.  `Distance` is the raw
`float64` cosine distance scanned from the vector index; the post-query
logic verified here never reads it, so it is modelled as an opaque
integer code. -/
structure SearchResult where
  ID : Nat
  Text : List Char
  SourceFile : List Char
  SectionTitle : List Char
  ParentTitle : List Char
  HeaderLevel : Nat
  ValidAt : List Char
  Distance : Int
deriving DecidableEq

/-- The `less` closure of `sort.SliceStable` in `Search` (`search.go`
lines 98–111): timeless rows (empty `ValidAt`) before dated rows, dated
rows by ascending `ValidAt`; two timeless rows are unordered. -/
def goLess (a b : SearchResult) : Bool :=
  if a.ValidAt = [] ∧ b.ValidAt = [] then false
  else if a.ValidAt = [] then true
  else if b.ValidAt = [] then false
  else decide (a.ValidAt < b.ValidAt)

/-- Stable insertion of `a` in front of the first element `b` it is not
strictly greater than (`¬ goLess b a`). -/
def chronoInsert (a : SearchResult) : List SearchResult → List SearchResult
  | [] => [a]
  | b :: l => if goLess b a then b :: chronoInsert a l else a :: b :: l

/-- `sort.SliceStable(results, goLess)`: a stable sort is uniquely
determined by the strict weak order `goLess`, and insertion sort from the
right realises it. -/
def chronoSort : List SearchResult → List SearchResult
  | [] => []
  | a :: l => chronoInsert a (chronoSort l)

/-- The filter-and-truncate stage of `Search` (`search.go` lines 84–96):
with a non-empty `asOf`, keep rows that are timeless or dated at most
`asOf`; then cut the list down to `limit` when it is longer. -/
def searchKept (cands : List SearchResult) (limit : Nat) (asOf : List Char) :
    List SearchResult :=
  let results :=
    if asOf ≠ [] then
      cands.filter (fun r => decide (r.ValidAt = [] ∨ r.ValidAt ≤ asOf))
    else cands
  if limit < results.length then results.take limit else results

/-- The post-database part of `Search(db, ollama, query, limit, asOf)`
(`search.go` lines 84–113) applied to the distance-ordered candidate rows
returned by the vector index. -/
def SearchPost (cands : List SearchResult) (limit : Nat) (asOf : List Char) :
    List SearchResult :=
  chronoSort (searchKept cands limit asOf)

/-- Spec-side stable insertion among dated rows: `a` goes in front of the
first `b` whose date is not strictly earlier. -/
def datedInsert (a : SearchResult) : List SearchResult → List SearchResult
  | [] => [a]
  | b :: l => if decide (b.ValidAt < a.ValidAt) then b :: datedInsert a l else a :: b :: l

/-- Spec-side stable sort of dated rows by ascending `ValidAt`. -/
def datedSort : List SearchResult → List SearchResult
  | [] => []
  | a :: l => datedInsert a (datedSort l)

/-- The reordering described by the specification: timeless rows first in
their incoming relative order, then the dated rows stably sorted by
ascending `ValidAt`. -/
def specChronoReorder (l : List SearchResult) : List SearchResult :=
  l.filter (fun r => decide (r.ValidAt = [])) ++
    datedSort (l.filter (fun r => decide (r.ValidAt ≠ [])))

/-! ### Entity aliases and `History` (`history.go`) -/

/-- One parsed group of the alias environment string: the (lower-cased)
key left of `=` and the trimmed, non-empty member names right of it. -/
structure AliasGroup where
  key : List Char
  names : List (List Char)
deriving DecidableEq

/-- Parsing of one `;`-separated group inside `loadAliasesFromEnv`
(`history.go` lines 20–44): skip blank groups, groups without `=`, groups
with a blank key and groups with no non-blank member names. -/
def parseGroup (group : List Char) : Option AliasGroup :=
  let g := trimSpace group
  if g = [] then none
  else
    match splitN2Eq g with
    | [k, v] =>
      let keyLower := lowerStr (trimSpace k)
      if keyLower = [] then none
      else
        let names := ((splitOnChar ',' v).map trimSpace).filter (fun n => n ≠ [])
        if names = [] then none else some ⟨keyLower, names⟩
    | _ => none

/-- All groups parsed from `MNEME_ALIASES` by `loadAliasesFromEnv`. -/
def parseAliasGroups (env : List Char) : List AliasGroup :=
  let e := trimSpace env
  if e = [] then [] else (splitOnChar ';' e).filterMap parseGroup

/-- The map writes one group contributes inside `loadAliasesFromEnv`
(`history.go` lines 45–47): one write per member name, keyed by the
lower-cased name and all carrying the same value `g.names` — the group
key itself is never written. -/
def pairsOfGroup (g : AliasGroup) : List (List Char × List (List Char)) :=
  g.names.map (fun n => (lowerStr n, g.names))

/-- The full `entityAliases` write sequence of `loadAliasesFromEnv`, in
execution order. -/
def aliasPairs (env : List Char) : List (List Char × List (List Char)) :=
  (parseAliasGroups env).flatMap pairsOfGroup

/-- Go map semantics for the write sequence: the last write to a key
wins. -/
def aliasLookup (pairs : List (List Char × List (List Char))) (k : List Char) :
    Option (List (List Char)) :=
  pairs.foldl (fun acc p => if p.1 = k then some p.2 else acc) none

/-- `resolveAliases(entity)` (`history.go` lines 53–59), with the alias
environment made an explicit argument. -/
def resolveAliases (env entity : List Char) : List (List Char) :=
  match aliasLookup (aliasPairs env) (lowerStr (trimSpace entity)) with
  | some names => names
  | none => [entity]

/-- The chunk columns read or ordered by the `History` query. -/
structure HistoryRow where
  ID : Nat
  Text : List Char
  SourceFile : List Char
  SectionTitle : List Char
  ParentTitle : Option (List Char)
  ValidAt : Option (List Char)
  IngestedAt : List Char
  SectionSequence : Nat
deriving DecidableEq

/-- Semantics of `text LIKE '%name%' ESCAPE '\' COLLATE NOCASE` with
`%`, `_`, `\` escaped in `name` (`history.go` lines 84–87): a
case-insensitive literal substring match. -/
def matchesName (text name : List Char) : Bool :=
  (lowerStr text).tails.any (fun suf => (lowerStr name).isPrefixOf suf)

/-- `CASE WHEN valid_at IS NULL THEN 0 ELSE 1 END`. -/
def histNullCase (r : HistoryRow) : Nat :=
  match r.ValidAt with
  | none => 0
  | some _ => 1

/-- SQLite `valid_at ASC` over a nullable column: `NULL` sorts before
every string, strings compare bytewise. -/
def optLt : Option (List Char) → Option (List Char) → Bool
  | none, none => false
  | none, some _ => true
  | some _, none => false
  | some s, some t => decide (s < t)

/-- The total preorder realised by the `History` query's
`ORDER BY CASE WHEN valid_at IS NULL THEN 0 ELSE 1 END, valid_at ASC,
section_sequence ASC` (`history.go` line 94). -/
def histLE (a b : HistoryRow) : Bool :=
  decide (histNullCase a < histNullCase b) ||
    (decide (histNullCase a = histNullCase b) &&
      (optLt a.ValidAt b.ValidAt ||
        (decide (a.ValidAt = b.ValidAt) && decide (a.SectionSequence ≤ b.SectionSequence))))

/-- Insertion respecting a boolean reflexive-total order `le`. -/
def insertLe {α : Type} (le : α → α → Bool) (a : α) : List α → List α
  | [] => [a]
  | b :: l => if le a b then a :: b :: l else b :: insertLe le a l

/-- Insertion sort by `le`; models a SQL `ORDER BY` whose sort key is the
order `le` was built from. -/
def sortLe {α : Type} (le : α → α → Bool) : List α → List α
  | [] => []
  | a :: l => insertLe le a (sortLe le l)

/-- `History(db, entity, limit)` (`history.go` lines 74–134) as a function
of the chunk rows in the store: default the limit, alias-expand the
entity, keep rows whose text matches any name, order by the SQL sort key
and apply `LIMIT`. -/
def History (rows : List HistoryRow) (env entity : List Char) (limit : Int) :
    List HistoryRow :=
  let lim : Int := if limit ≤ 0 then 20 else limit
  let names := resolveAliases env entity
  (sortLe histLE (rows.filter (fun r => names.any (fun n => matchesName r.Text n)))).take
    lim.toNat

/-- The ordering the specification describes for `History` results:
timeless rows first, dated rows by ascending date, and ascending
`section_sequence` between rows of the same date (or both timeless). -/
def historyClaimOrder (a b : HistoryRow) : Prop :=
  match a.ValidAt, b.ValidAt with
  | none, none => a.SectionSequence ≤ b.SectionSequence
  | none, some _ => True
  | some _, none => False
  | some s, some t => s < t ∨ (s = t ∧ a.SectionSequence ≤ b.SectionSequence)

/-! ### Store and ingestion (`db.go` schema, `part_005` `IngestFile`,
`watch.go` `ingestBatch`) -/

/-- One row of the `chunks` table (`db.go` lines 31–44). -/
structure ChunkRow where
  id : Nat
  Text : List Char
  SourceFile : List Char
  SectionTitle : List Char
  HeaderLevel : Nat
  ParentTitle : List Char
  SectionSequence : Nat
  ChunkSequence : Nat
  ChunkTotal : Nat
  ValidAt : Option (List Char)
  IngestedAt : List Char
deriving DecidableEq

/-- One row of the `vec_chunks` virtual table (`db.go` lines 46–49); the
serialized embedding is opaque to every verified property. -/
structure VecRow where
  chunk_id : Nat
  embedding : List Int
deriving DecidableEq

/-- The persistent store: both tables plus the rowid counter that serves
`LastInsertId`. -/
structure Store where
  chunks : List ChunkRow
  vecs : List VecRow
  nextId : Nat
deriving DecidableEq

/-- `SELECT id FROM chunks WHERE source_file = ?`. -/
def chunkIdsForSource (st : Store) (src : List Char) : List Nat :=
  (st.chunks.filter (fun c => decide (c.SourceFile = src))).map (fun c => c.id)

/-- `DELETE FROM vec_chunks WHERE chunk_id IN (SELECT id FROM chunks WHERE
source_file = ?)`. -/
def deleteVecsForSource (st : Store) (src : List Char) : Store :=
  { st with vecs := st.vecs.filter (fun v => decide (v.chunk_id ∉ chunkIdsForSource st src)) }

/-- `DELETE FROM chunks WHERE source_file = ?`. -/
def deleteChunksForSource (st : Store) (src : List Char) : Store :=
  { st with chunks := st.chunks.filter (fun c => decide (c.SourceFile ≠ src)) }

/-- `INSERT INTO chunks (...) VALUES (...)` followed by `LastInsertId()`. -/
def insertChunkRow (st : Store) (c : ChunkData) (src : List Char)
    (validAt : Option (List Char)) (ingestedAt : List Char) : Store × Nat :=
  let row : ChunkRow :=
    { id := st.nextId, Text := c.Text, SourceFile := src,
      SectionTitle := c.SectionTitle, HeaderLevel := c.HeaderLevel,
      ParentTitle := c.ParentTitle, SectionSequence := c.SectionSequence,
      ChunkSequence := c.ChunkSequence, ChunkTotal := c.ChunkTotal,
      ValidAt := validAt, IngestedAt := ingestedAt }
  ({ st with chunks := st.chunks ++ [row], nextId := st.nextId + 1 }, st.nextId)

/-- `INSERT INTO vec_chunks (chunk_id, embedding) VALUES (?, ?)`. -/
def insertVecRow (st : Store) (cid : Nat) (emb : List Int) : Store :=
  { st with vecs := st.vecs ++ [{ chunk_id := cid, embedding := emb }] }

/-- `type IngestResult struct` of `part_005`. -/
structure IngestResult where
  SectionsFound : Nat
  ChunksCreated : Int
  SubChunksCreated : Int
  DeletedChunks : Int
deriving DecidableEq

/-- The per-chunk loop of `IngestFile` (`part_005` lines 300–348), acting
on the transaction snapshot: skip chunks whose trimmed text is empty
(decrementing the created count), embed, insert the chunk row, insert the
vector row; an embedding failure aborts with an error. -/
def ingestChunksLoop (embed : List Char → Option (List Int))
    (filePath ingestedAt : List Char) (validAtValue : Option (List Char)) :
    List ChunkData → Store → IngestResult → Except String (Store × IngestResult)
  | [], tx, res => .ok (tx, res)
  | c :: rest, tx, res =>
    if trimSpace c.Text = [] then
      ingestChunksLoop embed filePath ingestedAt validAtValue rest tx
        { res with ChunksCreated := res.ChunksCreated - 1 }
    else
      match embed c.Text with
      | none => .error "embed failed"
      | some emb =>
        let r := insertChunkRow tx c filePath validAtValue ingestedAt
        ingestChunksLoop embed filePath ingestedAt validAtValue rest
          (insertVecRow r.1 r.2 emb) res

/-- The per-section loop of `IngestFile` (`part_005` lines 285–349):
resolve the section date against the caller-supplied default, chunk the
section with `maxWords = 600`, update the counters and run the chunk
loop. -/
def ingestSectionsLoop (embed : List Char → Option (List Int))
    (filePath ingestedAt validAt : List Char) :
    List Section → Store → IngestResult → Except String (Store × IngestResult)
  | [], tx, res => .ok (tx, res)
  | s :: rest, tx, res =>
    let sectionValidAt := if s.ValidAt = [] then validAt else s.ValidAt
    let validAtValue : Option (List Char) :=
      if sectionValidAt = [] then none else some sectionValidAt
    let chunks := ChunkSection s 600
    let res :=
      { res with
        ChunksCreated := res.ChunksCreated + chunks.length,
        SubChunksCreated :=
          res.SubChunksCreated + (if 1 < chunks.length then (chunks.length : Int) - 1 else 0) }
    match ingestChunksLoop embed filePath ingestedAt validAtValue chunks tx res with
    | .error e => .error e
    | .ok r => ingestSectionsLoop embed filePath ingestedAt validAt rest r.1 r.2

/-- The statements `IngestFile` runs at the top of its transaction
(`part_005` lines 264–283): delete the source's vector rows, count and
delete its chunk rows.  Returns the transaction snapshot and the
`RowsAffected` count of the chunk delete. -/
def IngestFileBegin (st : Store) (filePath : List Char) : Store × Nat :=
  let tx := deleteVecsForSource st filePath
  let deleted := (tx.chunks.filter (fun c => decide (c.SourceFile = filePath))).length
  (deleteChunksForSource tx filePath, deleted)

/-- Everything `IngestFile` does between `db.Begin()` and `tx.Commit()`,
acting on the transaction snapshot. -/
def ingestFileRun (st : Store) (embed : List Char → Option (List Int))
    (filePath : List Char) (sections : List Section) (validAt ingestedAt : List Char) :
    Except String (Store × IngestResult) :=
  let b := IngestFileBegin st filePath
  ingestSectionsLoop embed filePath ingestedAt validAt sections b.1
    { SectionsFound := sections.length, ChunksCreated := 0, SubChunksCreated := 0,
      DeletedChunks := (b.2 : Int) }

/-- The write path of `IngestFile` (`part_005` lines 252–356), from the
parsed section list on: open a transaction (modelled as the snapshot
threaded by `ingestFileRun`), delete the source's vector rows and chunk
rows inside it, run the section loop inside it, and only on success
commit the snapshot; on any error the deferred `tx.Rollback()` leaves the
persistent store as it was. -/
def IngestFileSections (st : Store) (embed : List Char → Option (List Int))
    (filePath : List Char) (sections : List Section) (validAt ingestedAt : List Char) :
    Store × Except String IngestResult :=
  match ingestFileRun st embed filePath sections validAt ingestedAt with
  | .error e => (st, .error e)
  | .ok r => (r.1, .ok r.2)

/-- The per-chunk loop of the watcher's `ingestBatch` (`watch.go` lines
257–288): every statement runs directly against the persistent store —
there is no transaction — so mutations made before an embedding failure
survive the error return. -/
def ingestBatchChunks (embed : List Char → Option (List Int))
    (sourceFile ingestedAt : List Char) (validAtValue : Option (List Char)) :
    List ChunkData → Store → Store × Except String Unit
  | [], st => (st, .ok ())
  | c :: rest, st =>
    if trimSpace c.Text = [] then
      ingestBatchChunks embed sourceFile ingestedAt validAtValue rest st
    else
      match embed c.Text with
      | none => (st, .error "embed failed")
      | some emb =>
        let r := insertChunkRow st c sourceFile validAtValue ingestedAt
        ingestBatchChunks embed sourceFile ingestedAt validAtValue rest
          (insertVecRow r.1 r.2 emb)

/-- The per-section loop of the watcher's `ingestBatch` (`watch.go` lines
245–289): sections with blank content are skipped before chunking. -/
def ingestBatchSectionsLoop (embed : List Char → Option (List Int))
    (sourceFile ingestedAt : List Char) :
    List Section → Store → Store × Except String Unit
  | [], st => (st, .ok ())
  | s :: rest, st =>
    if trimSpace s.Content = [] then
      ingestBatchSectionsLoop embed sourceFile ingestedAt rest st
    else
      let validAtValue : Option (List Char) :=
        if s.ValidAt = [] then none else some s.ValidAt
      match ingestBatchChunks embed sourceFile ingestedAt validAtValue
          (ChunkSection s 600) st with
      | (st, .error e) => (st, .error e)
      | (st, .ok _) => ingestBatchSectionsLoop embed sourceFile ingestedAt rest st

/-- The watcher's `ingestBatch` (`watch.go` lines 232–292) from the parsed
section list on: an empty section list returns before any statement;
otherwise both `DELETE`s run immediately (`db.Exec`, no transaction) and
then the section loop inserts chunk and vector rows one by one. -/
def ingestBatchSections (st : Store) (embed : List Char → Option (List Int))
    (sourceFile : List Char) (sections : List Section) (ingestedAt : List Char) :
    Store × Except String Unit :=
  if sections.isEmpty then (st, .ok ())
  else
    let st := deleteVecsForSource st sourceFile
    let st := deleteChunksForSource st sourceFile
    ingestBatchSectionsLoop embed sourceFile ingestedAt sections st

/-- The effect of `InitDB` (`db.go` lines 123–150) on the rows of the
chunk and vector tables.  `InitDB` executes `PRAGMA journal_mode=WAL`,
`PRAGMA busy_timeout=5000`, the `CREATE TABLE IF NOT EXISTS` /
`CREATE VIRTUAL TABLE IF NOT EXISTS` / `CREATE INDEX IF NOT EXISTS`
statements of `buildSchema`, and the optional FTS5 setup over the
`messages` tables — none of which deletes or modifies a `chunks` or
`vec_chunks` row, so on row contents it is the identity. -/
def initDBRowEffect (st : Store) : Store := st

/-- `DELETE FROM vec_chunks WHERE chunk_id NOT IN (SELECT id FROM chunks)`
— the orphan sweep run by `runWatch` (`watch.go` line 424) right after
`InitDB`. -/
def orphanSweep (st : Store) : Store :=
  { st with
    vecs := st.vecs.filter (fun v => (st.chunks.map (fun c => c.id)).contains v.chunk_id) }

/-! ### Session tailer loops (`watch.go` `runWatch`,
`cc-watch.go` `runWatchCC`) -/

/-- Events driving a tailer loop: a poll tick that admits a batch of new
messages into the pending buffer, or the operator's interrupt signal.
Messages are identified by opaque numbers. -/
inductive WatchEv where
  | poll (msgs : List Nat)
  | interrupt
deriving DecidableEq

/-- Observable state of a tailer loop: the pending buffer, the batches
handed to `ingestBatch` so far, every message admitted so far, and
whether the loop has exited. -/
structure TailState where
  pending : List Nat
  batches : List (List Nat)
  admitted : List Nat
  stopped : Bool
deriving DecidableEq

/-- Loop state at entry: nothing pending, nothing ingested. -/
def initTail : TailState := { pending := [], batches := [], admitted := [], stopped := false }

/-- Admitting one poll's messages and applying the batch-size check
(`len(pending) >= batchSize` triggers one `ingestBatch` of the whole
buffer) — identical in `runWatch` and `runWatchCC`. -/
def tailPoll (batchSize : Nat) (s : TailState) (ms : List Nat) : TailState :=
  let s := { s with pending := s.pending ++ ms, admitted := s.admitted ++ ms }
  if batchSize ≤ s.pending.length then
    { s with pending := [], batches := s.batches ++ [s.pending] }
  else s

/-- `flushPending` of `runWatchCC` (`cc-watch.go` lines 523–537): ingest
the pending buffer as one final batch unless it is empty. -/
def flushPendingCC (s : TailState) : TailState :=
  if s.pending = [] then s
  else { s with pending := [], batches := s.batches ++ [s.pending] }

/-- One step of `runWatchCC`'s select loop (`cc-watch.go` lines 539–547):
the interrupt case flushes the pending buffer and returns. -/
def ccStep (batchSize : Nat) (s : TailState) (ev : WatchEv) : TailState :=
  if s.stopped then s
  else
    match ev with
    | .interrupt => { flushPendingCC s with stopped := true }
    | .poll ms => tailPoll batchSize s ms

/-- `runWatchCC`'s tailing loop over a sequence of events. -/
def ccRun (batchSize : Nat) (evs : List WatchEv) : TailState :=
  evs.foldl (ccStep batchSize) initTail

/-- One step of `runWatch`'s loop (`watch.go` lines 453–499).  `runWatch`
installs no signal handler (`for range ticker.C` with no `select` on a
signal channel), so an interrupt terminates the process through the Go
runtime's default handling: the loop stops and the pending buffer is
never ingested. -/
def watchStep (batchSize : Nat) (s : TailState) (ev : WatchEv) : TailState :=
  if s.stopped then s
  else
    match ev with
    | .interrupt => { s with stopped := true }
    | .poll ms => tailPoll batchSize s ms

/-- `runWatch`'s tailing loop over a sequence of events. -/
def watchRun (batchSize : Nat) (evs : List WatchEv) : TailState :=
  evs.foldl (watchStep batchSize) initTail

/-! ### `Status` (`status.go`) -/

/-- `type StatusInfo struct` of `status.go`. -/
structure StatusInfo where
  OllamaHealthy : Bool
  EmbedModel : String
  SqliteVecVersion : String
  TotalChunks : Int
  EarliestValidAt : String
  LatestValidAt : String
deriving DecidableEq

/-- The outcomes of the five independent probes `Status` makes:
`ollama.IsHealthy` (already a `Bool`: a failed health check reports
`false`), and the four `db.QueryRow(...).Scan(...)` calls, where `none`
is a query/scan error and the `MIN`/`MAX` scans can also succeed with a
SQL `NULL` (`some none`). -/
structure StatusOracle where
  healthy : Bool
  vecVersion : Option String
  totalChunks : Option Int
  earliest : Option (Option String)
  latest : Option (Option String)
deriving DecidableEq

/-- `Status(db, ollama, embedModel)` (`status.go` lines 20–58): every
probe result is folded into its own field, an `err != nil` (or a `NULL`
aggregate) leaving that field at its zero value; no probe outcome is ever
returned as an error. -/
def Status (o : StatusOracle) (embedModel : String) : StatusInfo :=
  { OllamaHealthy := o.healthy,
    EmbedModel := embedModel,
    SqliteVecVersion :=
      match o.vecVersion with
      | some v => v
      | none => "",
    TotalChunks :=
      match o.totalChunks with
      | some n => n
      | none => 0,
    EarliestValidAt :=
      match o.earliest with
      | some (some s) => s
      | _ => "",
    LatestValidAt :=
      match o.latest with
      | some (some s) => s
      | _ => "" }

/-! ### Concrete inputs used by witnesses and counterexamples, and loop
invariants -/

/-- Everything a tailer loop has ingested or still holds, compared with
what it admitted; a stopped `runWatchCC` loop has flushed its buffer. -/
def tailInv (s : TailState) : Prop :=
  s.batches.flatten ++ s.pending = s.admitted ∧ (s.stopped = true → s.pending = [])

/-- A store holding one orphan vector row (`chunk_id` 1, no chunks). -/
def orphanStore : Store :=
  { chunks := [], vecs := [{ chunk_id := 1, embedding := [0] }], nextId := 0 }

/-- A store whose single vector row is matched by a chunk row. -/
def pairedStore : Store :=
  { chunks :=
      [{ id := 1, Text := ['a'], SourceFile := ['f'], SectionTitle := ['t'],
         HeaderLevel := 2, ParentTitle := [], SectionSequence := 1,
         ChunkSequence := 1, ChunkTotal := 1, ValidAt := none, IngestedAt := [] }],
    vecs := [{ chunk_id := 1, embedding := [0] }], nextId := 2 }

/-- An oracle state in which every probe of `Status` failed. -/
def allFailOracle : StatusOracle :=
  { healthy := false, vecVersion := none, totalChunks := none,
    earliest := none, latest := none }

/-- Words remaining in a paragraph list, counted the way the chunk loop
counts them (`countWords(strings.TrimSpace(paragraph))`). -/
def parasWordsRem (ps : List (List Char)) : Nat :=
  (ps.map (fun p => wordCount (trimSpace p))).sum

/-- An embedder that fails on every input. -/
def failEmbed : List Char → Option (List Int) := fun _ => none

/-- An embedder that succeeds on every input. -/
def okEmbed : List Char → Option (List Int) := fun _ => some [1]

/-- A store holding one chunk (and its vector) for source `S`. -/
def exStoreS : Store :=
  { chunks :=
      [{ id := 0, Text := "old".toList, SourceFile := ['S'], SectionTitle := ['t'],
         HeaderLevel := 2, ParentTitle := [], SectionSequence := 1,
         ChunkSequence := 1, ChunkTotal := 1, ValidAt := none, IngestedAt := [] }],
    vecs := [{ chunk_id := 0, embedding := [5] }], nextId := 1 }

/-- A one-word section. -/
def exSectionHello : Section :=
  { Title := ['T'], HeaderLevel := 2, ParentTitle := [], Content := "hello".toList,
    Sequence := 1, ValidAt := [] }

/-- The chunk row a successful ingest of `exSectionHello` into `exStoreS`
produces. -/
def helloRow : ChunkRow :=
  { id := 1, Text := "hello".toList, SourceFile := ['S'], SectionTitle := ['T'],
    HeaderLevel := 2, ParentTitle := [], SectionSequence := 1, ChunkSequence := 1,
    ChunkTotal := 1, ValidAt := none, IngestedAt := [] }

/-- A section that is a single paragraph of two words. -/
def oneParaSec : Section :=
  { Title := ['T'], HeaderLevel := 2, ParentTitle := [], Content := "a b".toList,
    Sequence := 1, ValidAt := [] }

/-- A section of two one-word paragraphs separated by a blank line. -/
def twoParaSec : Section :=
  { Title := ['T'], HeaderLevel := 2, ParentTitle := [], Content := "a\n\nb".toList,
    Sequence := 1, ValidAt := [] }

/-- A section whose content is only white space. -/
def blankSec : Section :=
  { Title := ['T'], HeaderLevel := 2, ParentTitle := [], Content := [' '],
    Sequence := 1, ValidAt := [] }

/-- A timeless search row. -/
def srTimeless : SearchResult :=
  { ID := 1, Text := ['a'], SourceFile := ['f'], SectionTitle := ['s'],
    ParentTitle := [], HeaderLevel := 2, ValidAt := [], Distance := 1 }

/-- A search row dated 2024-01-01. -/
def srEarly : SearchResult :=
  { ID := 2, Text := ['b'], SourceFile := ['f'], SectionTitle := ['s'],
    ParentTitle := [], HeaderLevel := 2, ValidAt := "2024-01-01".toList, Distance := 2 }

/-- A search row dated 2025-01-01. -/
def srLate : SearchResult :=
  { ID := 3, Text := ['c'], SourceFile := ['f'], SectionTitle := ['s'],
    ParentTitle := [], HeaderLevel := 2, ValidAt := "2025-01-01".toList, Distance := 3 }

/-! ## Theorems -/

/-! ### Search lemmas (C2, C3) -/

theorem mem_chronoInsert {a x : SearchResult} {l : List SearchResult} :
    x ∈ chronoInsert a l ↔ x = a ∨ x ∈ l := by
  induction l with
  | nil => simp [chronoInsert]
  | cons b t ih =>
    by_cases h : goLess b a <;> simp [chronoInsert, h, ih] <;> tauto

theorem mem_chronoSort {x : SearchResult} {l : List SearchResult} :
    x ∈ chronoSort l ↔ x ∈ l := by
  induction l with
  | nil => simp [chronoSort]
  | cons b t ih => simp [chronoSort, mem_chronoInsert, ih]

theorem length_chronoInsert (a : SearchResult) (l : List SearchResult) :
    (chronoInsert a l).length = l.length + 1 := by
  induction l with
  | nil => rfl
  | cons b t ih => by_cases h : goLess b a <;> simp [chronoInsert, h, ih]

theorem length_chronoSort (l : List SearchResult) :
    (chronoSort l).length = l.length := by
  induction l with
  | nil => rfl
  | cons b t ih => simp [chronoSort, length_chronoInsert, ih]

theorem goLess_to_timeless (b a : SearchResult) (ha : a.ValidAt = []) :
    goLess b a = false := by
  by_cases hb : b.ValidAt = [] <;> simp [goLess, ha, hb]

theorem goLess_timeless_dated (b a : SearchResult) (hb : b.ValidAt = [])
    (ha : a.ValidAt ≠ []) : goLess b a = true := by
  simp [goLess, hb, ha]

theorem chronoInsert_timeless (a : SearchResult) (ha : a.ValidAt = [])
    (l : List SearchResult) : chronoInsert a l = a :: l := by
  cases l with
  | nil => rfl
  | cons b t => simp [chronoInsert, goLess_to_timeless b a ha]

theorem chronoInsert_append_timeless (a : SearchResult) (ha : a.ValidAt ≠ [])
    (T D : List SearchResult) (hT : ∀ b ∈ T, b.ValidAt = []) :
    chronoInsert a (T ++ D) = T ++ chronoInsert a D := by
  induction T with
  | nil => rfl
  | cons b t ih =>
    have hb := hT b (by simp)
    have step : chronoInsert a ((b :: t) ++ D) = b :: chronoInsert a (t ++ D) := by
      simp [chronoInsert, goLess_timeless_dated b a hb ha]
    rw [step, ih (fun x hx => hT x (by simp [hx])), List.cons_append]

theorem chronoInsert_dated (a : SearchResult) (ha : a.ValidAt ≠ [])
    (D : List SearchResult) (hD : ∀ b ∈ D, b.ValidAt ≠ []) :
    chronoInsert a D = datedInsert a D := by
  induction D with
  | nil => rfl
  | cons b t ih =>
    have hb := hD b (by simp)
    have hg : goLess b a = decide (b.ValidAt < a.ValidAt) := by
      simp [goLess, hb, ha]
    by_cases h : b.ValidAt < a.ValidAt
    · have s1 : chronoInsert a (b :: t) = b :: chronoInsert a t := by
        simp [chronoInsert, hg, h]
      have s2 : datedInsert a (b :: t) = b :: datedInsert a t := by
        simp [datedInsert, h]
      rw [s1, s2, ih (fun x hx => hD x (by simp [hx]))]
    · have s1 : chronoInsert a (b :: t) = a :: b :: t := by
        simp [chronoInsert, hg, h]
      have s2 : datedInsert a (b :: t) = a :: b :: t := by
        simp [datedInsert, h]
      rw [s1, s2]

theorem mem_datedInsert {a x : SearchResult} {l : List SearchResult} :
    x ∈ datedInsert a l ↔ x = a ∨ x ∈ l := by
  induction l with
  | nil => simp [datedInsert]
  | cons b t ih =>
    by_cases h : b.ValidAt < a.ValidAt <;> simp [datedInsert, h, ih] <;> tauto

theorem mem_datedSort {x : SearchResult} {l : List SearchResult} :
    x ∈ datedSort l ↔ x ∈ l := by
  induction l with
  | nil => simp [datedSort]
  | cons b t ih => simp [datedSort, mem_datedInsert, ih]

/-- The code's stable chronological sort agrees with the reordering the
specification describes: timeless rows first in incoming order, then the
dated rows stably sorted by ascending date. -/
theorem chronoSort_decomp (l : List SearchResult) :
    chronoSort l = specChronoReorder l := by
  induction l with
  | nil => rfl
  | cons a t ih =>
    have hstep : chronoSort (a :: t) = chronoInsert a (chronoSort t) := rfl
    by_cases ha : a.ValidAt = []
    · rw [hstep, ih, chronoInsert_timeless a ha]
      simp [specChronoReorder, List.filter_cons, ha]
    · rw [hstep, ih]
      simp only [specChronoReorder]
      rw [chronoInsert_append_timeless a ha _ _
          (fun b hb => of_decide_eq_true (List.mem_filter.mp hb).2),
        chronoInsert_dated a ha _
          (fun b hb => of_decide_eq_true
            (List.mem_filter.mp (mem_datedSort.mp hb)).2)]
      simp [List.filter_cons, ha, datedSort]

theorem length_searchKept (cands : List SearchResult) (limit : Nat)
    (asOf : List Char) : (searchKept cands limit asOf).length ≤ limit := by
  unfold searchKept
  set results := if asOf ≠ [] then
      cands.filter (fun r => decide (r.ValidAt = [] ∨ r.ValidAt ≤ asOf))
    else cands
  by_cases h : limit < results.length
  · simp [h, List.length_take]
  · simpa [h] using Nat.le_of_not_lt h

theorem mem_searchKept_of_asOf (cands : List SearchResult) (limit : Nat)
    (asOf : List Char) (r : SearchResult) (has : asOf ≠ [])
    (hr : r ∈ searchKept cands limit asOf) :
    r.ValidAt = [] ∨ r.ValidAt ≤ asOf := by
  simp only [searchKept, has, ne_eq, not_false_eq_true, if_true] at hr
  have hfil : r ∈ cands.filter (fun r => decide (r.ValidAt = [] ∨ r.ValidAt ≤ asOf)) := by
    by_cases h : limit <
        (cands.filter (fun r => decide (r.ValidAt = [] ∨ r.ValidAt ≤ asOf))).length
    · rw [if_pos h] at hr
      exact List.take_subset _ _ hr
    · rwa [if_neg h] at hr
  exact of_decide_eq_true (List.mem_filter.mp hfil).2

/-! ### C2: the as-of filter -/

/-- Claim C2: with a non-empty `asOf`, every row `Search` returns is
either timeless (empty `valid_at`) or dated no later than `asOf`; a row
dated after `asOf` is never returned. -/
theorem search_asof_cutoff (cands : List SearchResult) (limit : Nat)
    (asOf : List Char) (r : SearchResult) (has : asOf ≠ [])
    (hr : r ∈ SearchPost cands limit asOf) :
    r.ValidAt = [] ∨ r.ValidAt ≤ asOf :=
  mem_searchKept_of_asOf cands limit asOf r has
    (mem_chronoSort.mp hr)

/-- Witness for C2 on a concrete candidate list: the 2025 row is dropped
and the returned 2024 row satisfies the cutoff. -/
theorem search_asof_cutoff_witness :
    srEarly.ValidAt = [] ∨ srEarly.ValidAt ≤ "2024-06-01".toList :=
  search_asof_cutoff [srLate, srTimeless, srEarly] 5 "2024-06-01".toList srEarly
    (by decide) (by decide)

/-! ### C3: at most K results, chronologically reordered -/

/-- Claim C3: `Search` returns at most `limit` rows, and what it returns
is exactly the stable chronological reordering of the filtered,
truncated-to-`limit` distance-ordered candidates: timeless rows first in
their relative distance order, then dated rows by ascending `valid_at`,
ties keeping the prior order. -/
theorem search_topk_reordered (cands : List SearchResult) (limit : Nat)
    (asOf : List Char) :
    (SearchPost cands limit asOf).length ≤ limit ∧
    SearchPost cands limit asOf = specChronoReorder (searchKept cands limit asOf) := by
  constructor
  · rw [SearchPost, length_chronoSort]
    exact length_searchKept cands limit asOf
  · rw [SearchPost, chronoSort_decomp]

/-! ### C10: `Status` is total and failures stay in their own field -/

/-- Claim C10: `Status` always returns a `StatusInfo` (it is a total
function of the probe outcomes), a failed probe leaves exactly its own
field at the zero value, and every field is determined by its own probe
outcome alone, so one failing probe never disturbs another field. -/
theorem status_total_and_fieldwise (o : StatusOracle) (m : String) :
    (Status o m).EmbedModel = m ∧
    (Status o m).OllamaHealthy = o.healthy ∧
    (o.vecVersion = none → (Status o m).SqliteVecVersion = "") ∧
    (o.totalChunks = none → (Status o m).TotalChunks = 0) ∧
    (o.earliest = none → (Status o m).EarliestValidAt = "") ∧
    (o.latest = none → (Status o m).LatestValidAt = "") ∧
    (∀ o' : StatusOracle, o.healthy = o'.healthy →
      (Status o m).OllamaHealthy = (Status o' m).OllamaHealthy) ∧
    (∀ o' : StatusOracle, o.vecVersion = o'.vecVersion →
      (Status o m).SqliteVecVersion = (Status o' m).SqliteVecVersion) ∧
    (∀ o' : StatusOracle, o.totalChunks = o'.totalChunks →
      (Status o m).TotalChunks = (Status o' m).TotalChunks) ∧
    (∀ o' : StatusOracle, o.earliest = o'.earliest →
      (Status o m).EarliestValidAt = (Status o' m).EarliestValidAt) ∧
    (∀ o' : StatusOracle, o.latest = o'.latest →
      (Status o m).LatestValidAt = (Status o' m).LatestValidAt) := by
  refine ⟨rfl, rfl, ?_, ?_, ?_, ?_, ?_, ?_, ?_, ?_, ?_⟩
  · intro h; simp [Status, h]
  · intro h; simp [Status, h]
  · intro h; simp [Status, h]
  · intro h; simp [Status, h]
  · intro o' h; simp [Status, h]
  · intro o' h; simp [Status, h]
  · intro o' h; simp [Status, h]
  · intro o' h; simp [Status, h]
  · intro o' h; simp [Status, h]

/-- Witness for C10 at a concrete all-failing oracle. -/
theorem status_total_and_fieldwise_witness :
    (Status allFailOracle "qwen3-embedding:0.6b").SqliteVecVersion = "" ∧
    (Status allFailOracle "qwen3-embedding:0.6b").TotalChunks = 0 :=
  ⟨(status_total_and_fieldwise allFailOracle "qwen3-embedding:0.6b").2.2.1 rfl,
   (status_total_and_fieldwise allFailOracle "qwen3-embedding:0.6b").2.2.2.1 rfl⟩

/-! ### C5: orphan vector rows and `InitDB` -/

/-- Counterexample to claim C5 as stated: `InitDB` itself deletes nothing,
so a store holding an orphan vector row still holds it after `InitDB`
completes successfully. -/
theorem initdb_leaves_orphan :
    ¬ (∀ v ∈ (initDBRowEffect orphanStore).vecs,
        ∃ c ∈ (initDBRowEffect orphanStore).chunks, c.id = v.chunk_id) := by
  decide

/-- Claim C5 as amended: the orphan sweep is not part of `InitDB`; it is
the `DELETE` the watch commands run immediately after `InitDB`, and after
that sweep every remaining vector row has a matching chunk row. -/
theorem sweep_after_initdb_no_orphans (st : Store) (v : VecRow)
    (hv : v ∈ (orphanSweep (initDBRowEffect st)).vecs) :
    ∃ c ∈ (orphanSweep (initDBRowEffect st)).chunks, c.id = v.chunk_id := by
  simp only [initDBRowEffect, orphanSweep, List.mem_filter] at hv
  obtain ⟨-, hc⟩ := hv
  have : v.chunk_id ∈ st.chunks.map (fun c => c.id) := by
    simpa using hc
  obtain ⟨c, hcmem, hcid⟩ := List.mem_map.mp this
  exact ⟨c, hcmem, hcid⟩

/-- Witness for C5's amended theorem on a concrete store. -/
theorem sweep_after_initdb_no_orphans_witness :
    ∃ c ∈ (orphanSweep (initDBRowEffect pairedStore)).chunks,
      c.id = ({ chunk_id := 1, embedding := [0] } : VecRow).chunk_id :=
  sweep_after_initdb_no_orphans pairedStore { chunk_id := 1, embedding := [0] }
    (by decide)

/-! ### C4: interrupt handling in the tailers -/

theorem tailPoll_inv (batchSize : Nat) (s : TailState) (ms : List Nat)
    (h : tailInv s) (hs : s.stopped = false) : tailInv (tailPoll batchSize s ms) := by
  obtain ⟨h1, -⟩ := h
  by_cases hb : batchSize ≤ s.pending.length + ms.length
  · refine ⟨?_, fun _ => ?_⟩
    · simp [tailPoll, hb, List.flatten_append, ← h1, List.append_assoc]
    · simp [tailPoll, hb]
  · refine ⟨?_, fun hh => ?_⟩
    · simp [tailPoll, hb, ← h1, List.append_assoc]
    · simp [tailPoll, hb] at hh
      simp [hs] at hh

theorem ccStep_inv (batchSize : Nat) (s : TailState) (ev : WatchEv)
    (h : tailInv s) : tailInv (ccStep batchSize s ev) := by
  by_cases hs : s.stopped = true
  · simpa [ccStep, hs] using h
  · rw [Bool.not_eq_true] at hs
    obtain ⟨h1, h2⟩ := h
    cases ev with
    | interrupt =>
      by_cases hp : s.pending = []
      · refine ⟨?_, fun _ => ?_⟩ <;>
          simp [ccStep, flushPendingCC, hs, hp, ← h1]
      · refine ⟨?_, fun _ => ?_⟩ <;>
          simp [ccStep, flushPendingCC, hs, hp, List.flatten_append, ← h1]
    | poll ms =>
      have := tailPoll_inv batchSize s ms ⟨h1, h2⟩ hs
      simpa [ccStep, hs] using this

theorem foldl_ccStep_inv (batchSize : Nat) (evs : List WatchEv) :
    ∀ s : TailState, tailInv s → tailInv (List.foldl (ccStep batchSize) s evs) := by
  induction evs with
  | nil => intro s hs; exact hs
  | cons e es ih =>
    intro s hs
    rw [List.foldl_cons]
    exact ih _ (ccStep_inv batchSize s e hs)

theorem ccRun_inv (batchSize : Nat) (evs : List WatchEv) :
    tailInv (ccRun batchSize evs) := by
  refine foldl_ccStep_inv batchSize evs initTail ?_
  exact ⟨by simp [initTail], by simp [initTail]⟩

/-- Claim C4 as amended for `runWatchCC`: whatever happened before, when
the interrupt signal arrives `runWatchCC` flushes the pending buffer as a
final batch before exiting (assuming the flush's own ingest succeeds), so
every admitted message ends up in an ingested batch. -/
theorem runwatchcc_interrupt_flushes (batchSize : Nat) (evs : List WatchEv) :
    (ccRun batchSize (evs ++ [WatchEv.interrupt])).pending = [] ∧
    (ccRun batchSize (evs ++ [WatchEv.interrupt])).batches.flatten =
      (ccRun batchSize (evs ++ [WatchEv.interrupt])).admitted := by
  have hfold : ccRun batchSize (evs ++ [WatchEv.interrupt]) =
      ccStep batchSize (ccRun batchSize evs) WatchEv.interrupt := by
    unfold ccRun
    rw [List.foldl_append]
    rfl
  obtain ⟨h1, h2⟩ := ccRun_inv batchSize evs
  set s := ccRun batchSize evs
  rw [hfold]
  by_cases hs : s.stopped = true
  · have hp := h2 hs
    refine ⟨?_, ?_⟩ <;> simp [ccStep, hs, hp, ← h1]
  · rw [Bool.not_eq_true] at hs
    by_cases hp : s.pending = []
    · refine ⟨?_, ?_⟩ <;>
        simp [ccStep, flushPendingCC, hs, hp, ← h1]
    · refine ⟨?_, ?_⟩ <;>
        simp [ccStep, flushPendingCC, hs, hp, List.flatten_append, ← h1]

/-- Counterexample to claim C4 as stated: `runWatch` in `watch.go`
installs no interrupt handler at all, so a message admitted into the
pending buffer is in no ingested batch when the interrupt arrives — the
buffer is dropped, not flushed. -/
theorem runwatch_interrupt_drops_pending :
    (watchRun 6 [WatchEv.poll [7], WatchEv.interrupt]).stopped = true ∧
    7 ∈ (watchRun 6 [WatchEv.poll [7], WatchEv.interrupt]).admitted ∧
    (watchRun 6 [WatchEv.poll [7], WatchEv.interrupt]).batches.flatten = [] := by
  decide

/-! ### Word-count, trim and paragraph-split lemmas (C6, C7) -/

theorem wcAux_all_ws (s : List Char) (h : ∀ c ∈ s, ws c = true) :
    ∀ st, wcAux st s = 0 := by
  induction s with
  | nil => intro st; rfl
  | cons c t ih =>
    intro st
    rw [wcAux, if_pos (h c (by simp))]
    exact ih (fun d hd => h d (by simp [hd])) false

theorem wcAux_append_wsonly (sfx : List Char) (hsfx : ∀ c ∈ sfx, ws c = true) :
    ∀ (l : List Char) (st : Bool), wcAux st (l ++ sfx) = wcAux st l := by
  intro l
  induction l with
  | nil =>
    intro st
    rw [List.nil_append, wcAux_all_ws sfx hsfx st]
    rfl
  | cons c t ih =>
    intro st
    by_cases hc : ws c
    · rw [List.cons_append, wcAux, if_pos hc, wcAux, if_pos hc]
      exact ih false
    · rw [List.cons_append, wcAux, if_neg hc, wcAux, if_neg hc, ih true]

theorem trimRight_eq_append (l : List Char) :
    l = trimRight l ++ (l.reverse.takeWhile ws).reverse := by
  rw [trimRight]
  conv_lhs => rw [← l.reverse_reverse]
  conv_lhs => rw [← List.takeWhile_append_dropWhile (p := ws) (l := l.reverse)]
  rw [List.reverse_append]

theorem wc_trimRight (l : List Char) : wordCount (trimRight l) = wordCount l := by
  conv_rhs => rw [trimRight_eq_append l]
  rw [wordCount, wordCount,
    wcAux_append_wsonly _ (fun c hc => List.mem_takeWhile_imp (by simpa using hc))]

theorem wc_trimLeft (l : List Char) : wordCount (trimLeft l) = wordCount l := by
  rw [trimLeft]
  induction l with
  | nil => rfl
  | cons c t ih =>
    by_cases hc : ws c
    · rw [List.dropWhile_cons_of_pos hc, ih]
      simp [wordCount, wcAux, hc]
    · rw [List.dropWhile_cons_of_neg hc]

theorem wc_trimSpace (l : List Char) : wordCount (trimSpace l) = wordCount l := by
  rw [trimSpace, wc_trimRight, wc_trimLeft]

theorem dropWhile_head_not (l : List Char) (c : Char) (rest : List Char)
    (h : l.dropWhile ws = c :: rest) : ws c = false := by
  induction l with
  | nil => cases h
  | cons d t ih =>
    by_cases hd : ws d
    · rw [List.dropWhile_cons_of_pos hd] at h
      exact ih h
    · rw [List.dropWhile_cons_of_neg hd] at h
      cases h
      simpa using hd

theorem wc_pos_of_trim_ne (p : List Char) (h : trimSpace p ≠ []) :
    1 ≤ wordCount (trimSpace p) := by
  rw [wc_trimSpace, ← wc_trimLeft]
  have hl : trimLeft p ≠ [] := by
    intro hnil
    exact h (by simp [trimSpace, hnil, trimRight])
  rcases he : trimLeft p with _ | ⟨c, rest⟩
  · exact absurd he hl
  · have hc : ws c = false := dropWhile_head_not p c rest (by rw [← trimLeft, he])
    simp [wordCount, wcAux, hc]

theorem splitPara_ne_nil (l : List Char) : splitPara l ≠ [] := by
  induction l using splitPara.induct with
  | case1 => simp [splitPara]
  | case2 rest ih => simp [splitPara]
  | case3 c rest h hm => simp [splitPara, hm]
  | case4 c rest h piece more hm ih => simp [splitPara, hm]

theorem wcAux_splitPara (l : List Char) :
    ∀ st p ps, splitPara l = p :: ps →
      wcAux st l = wcAux st p + (ps.map (fun q => wcAux false q)).sum := by
  induction l using splitPara.induct with
  | case1 =>
    intro st p ps h
    simp [splitPara] at h
    obtain ⟨h1, h2⟩ := h
    subst h1; subst h2
    simp
  | case2 rest ih =>
    intro st p ps h
    simp only [splitPara] at h
    obtain ⟨q, qs, hq⟩ : ∃ q qs, splitPara rest = q :: qs := by
      rcases hr : splitPara rest with _ | ⟨q, qs⟩
      · exact absurd hr (splitPara_ne_nil rest)
      · exact ⟨q, qs, rfl⟩
    rw [hq] at h
    injection h with h1 h2
    subst h1; subst h2
    have := ih false q qs hq
    simp [wcAux, ws, List.map_cons, this]
  | case3 c rest h hm =>
    exact absurd hm (splitPara_ne_nil rest)
  | case4 c rest hne piece more hm ih =>
    intro st p ps h
    simp only [splitPara, hm] at h
    injection h with h1 h2
    subst h1; subst h2
    by_cases hc : ws c
    · simp [wcAux, hc, ih false piece more hm]
    · simp [wcAux, hc, ih true piece more hm, Nat.add_assoc]

theorem sum_wc_splitPara (l : List Char) :
    ((splitPara l).map wordCount).sum = wordCount l := by
  rcases hs : splitPara l with _ | ⟨p, ps⟩
  · exact absurd hs (splitPara_ne_nil l)
  · rw [wordCount, wcAux_splitPara l false p ps hs, List.map_cons, List.sum_cons]
    rfl

theorem parasWordsRem_eq_sum_wc (ps : List (List Char)) :
    parasWordsRem ps = (ps.map wordCount).sum := by
  induction ps with
  | nil => rfl
  | cons p t ih =>
    simp only [parasWordsRem, List.map_cons, List.sum_cons]
    rw [wc_trimSpace,
      show (t.map (fun p => wordCount (trimSpace p))).sum = parasWordsRem t from rfl,
      ih]

theorem parasWordsRem_splitPara (l : List Char) :
    parasWordsRem (splitPara l) = wordCount l := by
  rw [parasWordsRem_eq_sum_wc, sum_wc_splitPara]

theorem sum_filter_nonblank (ps : List (List Char)) :
    (((ps.filter (fun p => trimSpace p ≠ [])).map
        (fun p => wordCount (trimSpace p))).sum) =
      (ps.map (fun p => wordCount (trimSpace p))).sum := by
  induction ps with
  | nil => rfl
  | cons p t ih =>
    by_cases hp : trimSpace p = []
    · have hz : wordCount (trimSpace p) = 0 := by rw [hp]; rfl
      rw [List.filter_cons, if_neg (by simp [hp]), ih, List.map_cons, List.sum_cons,
        hz]
      omega
    · rw [List.filter_cons, if_pos (by simp [hp]), List.map_cons, List.sum_cons, ih,
        List.map_cons, List.sum_cons]

theorem mem_lt_sum (ns : List Nat) (a : Nat) (hmem : a ∈ ns)
    (hpos : ∀ x ∈ ns, 1 ≤ x) (hlen : 2 ≤ ns.length) : a < ns.sum := by
  have hperm := List.perm_cons_erase hmem
  have hsum : ns.sum = a + (ns.erase a).sum := by
    rw [hperm.sum_eq]
    rfl
  have hlene : 1 ≤ (ns.erase a).length := by
    rw [List.length_erase_of_mem hmem]
    omega
  have hne : ns.erase a ≠ [] := List.length_pos.mp (by omega)
  obtain ⟨b, hb⟩ := List.exists_mem_of_ne_nil _ hne
  have hb1 : 1 ≤ b := hpos b (List.erase_subset _ _ hb)
  have hble : b ≤ (ns.erase a).sum :=
    List.single_le_sum (fun x _ => Nat.zero_le x) b hb
  have h1 : 1 ≤ (ns.erase a).sum := le_trans hb1 hble
  rw [hsum]
  omega

theorem para_bound (l : List Char) (maxWords : Nat)
    (hsum : wordCount l = maxWords + 1)
    (htwo : 2 ≤ ((splitPara l).filter (fun p => trimSpace p ≠ [])).length) :
    ∀ p ∈ splitPara l, trimSpace p = [] ∨ wordCount (trimSpace p) ≤ maxWords := by
  intro p hp
  by_cases ht : trimSpace p = []
  · exact Or.inl ht
  · right
    set ns := ((splitPara l).filter (fun p => trimSpace p ≠ [])).map
      (fun p => wordCount (trimSpace p)) with hns
    have hmem : wordCount (trimSpace p) ∈ ns := by
      rw [hns]
      exact List.mem_map_of_mem _ (List.mem_filter.mpr ⟨hp, by simp [ht]⟩)
    have hpos : ∀ x ∈ ns, 1 ≤ x := by
      intro x hx
      rw [hns] at hx
      obtain ⟨q, hq, hxq⟩ := List.mem_map.mp hx
      have := wc_pos_of_trim_ne q (by simpa using (List.mem_filter.mp hq).2)
      omega
    have hlen : 2 ≤ ns.length := by
      rw [hns, List.length_map]
      exact htwo
    have hlt := mem_lt_sum ns (wordCount (trimSpace p)) hmem hpos hlen
    have hns_sum : ns.sum = maxWords + 1 := by
      rw [hns, sum_filter_nonblank,
        show ((splitPara l).map (fun p => wordCount (trimSpace p))).sum =
          parasWordsRem (splitPara l) from rfl,
        parasWordsRem_splitPara, hsum]
    omega

/-! ### `packParas` step equations and length bounds (C6) -/

theorem packParas_nil (mw : Nat) (cur : List (List Char)) (curW : Nat)
    (acc : List (List Char)) : packParas mw [] cur curW acc = flushChunk cur acc := rfl

theorem packParas_skip (mw : Nat) (p : List Char) (rest cur : List (List Char))
    (curW : Nat) (acc : List (List Char)) (h : trimSpace p = []) :
    packParas mw (p :: rest) cur curW acc = packParas mw rest cur curW acc := by
  simp [packParas, h]

theorem packParas_oversize (mw : Nat) (p : List Char) (rest cur : List (List Char))
    (curW : Nat) (acc : List (List Char)) (h1 : trimSpace p ≠ []) (h2 : curW = 0)
    (h3 : mw < wordCount (trimSpace p)) :
    packParas mw (p :: rest) cur curW acc =
      packParas mw rest cur curW (acc ++ [trimSpace p]) := by
  simp [packParas, h1, h2, h3]

theorem packParas_flush (mw : Nat) (p : List Char) (rest cur : List (List Char))
    (curW : Nat) (acc : List (List Char)) (h1 : trimSpace p ≠ [])
    (h2 : ¬(curW = 0 ∧ mw < wordCount (trimSpace p)))
    (h3 : mw < curW + wordCount (trimSpace p)) :
    packParas mw (p :: rest) cur curW acc =
      packParas mw rest [trimSpace p] (wordCount (trimSpace p)) (flushChunk cur acc) := by
  simp [packParas, h1, h2, h3]

theorem packParas_pack (mw : Nat) (p : List Char) (rest cur : List (List Char))
    (curW : Nat) (acc : List (List Char)) (h1 : trimSpace p ≠ [])
    (h2 : ¬(curW = 0 ∧ mw < wordCount (trimSpace p)))
    (h3 : ¬(mw < curW + wordCount (trimSpace p))) :
    packParas mw (p :: rest) cur curW acc =
      packParas mw rest (cur ++ [trimSpace p]) (curW + wordCount (trimSpace p)) acc := by
  simp [packParas, h1, h2, h3]

theorem packParas_len_ge_one (mw : Nat) :
    ∀ (ps cur : List (List Char)) (curW : Nat) (acc : List (List Char)),
      cur ≠ [] → acc.length + 1 ≤ (packParas mw ps cur curW acc).length := by
  intro ps
  induction ps with
  | nil =>
    intro cur curW acc hc
    rw [packParas_nil, flushChunk, if_neg hc]
    simp
  | cons p rest ih =>
    intro cur curW acc hc
    by_cases ht : trimSpace p = []
    · rw [packParas_skip mw p rest cur curW acc ht]
      exact ih cur curW acc hc
    · by_cases h2 : curW = 0 ∧ mw < wordCount (trimSpace p)
      · rw [packParas_oversize mw p rest cur curW acc ht h2.1 h2.2]
        have := ih cur curW (acc ++ [trimSpace p]) hc
        simp only [List.length_append, List.length_cons, List.length_nil] at this
        omega
      · by_cases h3 : mw < curW + wordCount (trimSpace p)
        · rw [packParas_flush mw p rest cur curW acc ht h2 h3]
          have hstep := ih [trimSpace p] (wordCount (trimSpace p))
            (flushChunk cur acc) (by simp)
          have hfl : (flushChunk cur acc).length = acc.length + 1 := by
            rw [flushChunk, if_neg hc]
            simp
          omega
        · rw [packParas_pack mw p rest cur curW acc ht h2 h3]
          exact ih (cur ++ [trimSpace p]) (curW + wordCount (trimSpace p)) acc
            (by simp)

theorem packParas_len_ge_two (mw : Nat) :
    ∀ (ps cur : List (List Char)) (curW : Nat) (acc : List (List Char)),
      (∀ p ∈ ps, trimSpace p = [] ∨ wordCount (trimSpace p) ≤ mw) →
      curW ≤ mw → (cur = [] ↔ curW = 0) → mw < curW + parasWordsRem ps →
      acc.length + 2 ≤ (packParas mw ps cur curW acc).length := by
  intro ps
  induction ps with
  | nil =>
    intro cur curW acc hp hcw hiff hsum
    simp [parasWordsRem] at hsum
    omega
  | cons p rest ih =>
    intro cur curW acc hp hcw hiff hsum
    have hsum' : parasWordsRem (p :: rest) =
        wordCount (trimSpace p) + parasWordsRem rest := by
      simp [parasWordsRem]
    rw [hsum'] at hsum
    by_cases ht : trimSpace p = []
    · rw [packParas_skip mw p rest cur curW acc ht]
      have hz : wordCount (trimSpace p) = 0 := by rw [ht]; rfl
      exact ih cur curW acc (fun q hq => hp q (by simp [hq])) hcw hiff (by omega)
    · have hw : wordCount (trimSpace p) ≤ mw := (hp p (by simp)).resolve_left ht
      have hw1 : 1 ≤ wordCount (trimSpace p) := wc_pos_of_trim_ne p ht
      have h2 : ¬(curW = 0 ∧ mw < wordCount (trimSpace p)) := by
        rintro ⟨-, hgt⟩
        omega
      by_cases h3 : mw < curW + wordCount (trimSpace p)
      · rw [packParas_flush mw p rest cur curW acc ht h2 h3]
        have hcne : cur ≠ [] := by
          intro hcnil
          have : curW = 0 := hiff.mp hcnil
          omega
        have hfl : (flushChunk cur acc).length = acc.length + 1 := by
          rw [flushChunk, if_neg hcne]
          simp
        by_cases h4 : mw < wordCount (trimSpace p) + parasWordsRem rest
        · have := ih [trimSpace p] (wordCount (trimSpace p)) (flushChunk cur acc)
            (fun q hq => hp q (by simp [hq])) hw
            (⟨fun hh => absurd hh (by simp), fun hh => absurd hh (by omega)⟩) h4
          omega
        · have := packParas_len_ge_one mw rest [trimSpace p]
            (wordCount (trimSpace p)) (flushChunk cur acc) (by simp)
          omega
      · rw [packParas_pack mw p rest cur curW acc ht h2 h3]
        refine ih (cur ++ [trimSpace p]) (curW + wordCount (trimSpace p)) acc
          (fun q hq => hp q (by simp [hq])) (by omega) ?_ (by omega)
        constructor
        · intro hh
          simp at hh
        · intro hh
          omega

/-! ### C6: chunk counts at the word boundary -/

/-- Counterexample to claim C6 as stated: a section that is one single
paragraph of `maxWords + 1` words yields one chunk, not at least two —
the whole oversize paragraph becomes its own chunk. -/
theorem chunksection_single_paragraph_oversize :
    wordCount oneParaSec.Content = 1 + 1 ∧
    (ChunkSection oneParaSec 1).length = 1 ∧
    ¬ 2 ≤ (ChunkSection oneParaSec 1).length := by
  decide

/-- Claim C6 as amended: a section of exactly `maxWords` words yields one
chunk, and a section of `maxWords + 1` words yields at least two chunks
provided its content splits into at least two non-blank paragraphs (a
single oversize paragraph becomes one chunk of its own). -/
theorem chunksection_boundary_counts (s : Section) (maxWords : Nat) :
    (wordCount s.Content = maxWords → (ChunkSection s maxWords).length = 1) ∧
    (wordCount s.Content = maxWords + 1 →
      2 ≤ ((splitPara s.Content).filter (fun p => trimSpace p ≠ [])).length →
      2 ≤ (ChunkSection s maxWords).length) := by
  constructor
  · intro h
    rw [ChunkSection, if_pos (Nat.le_of_eq h)]
    rfl
  · intro hsum htwo
    have hgt : ¬ wordCount s.Content ≤ maxWords := by omega
    rw [ChunkSection, if_neg hgt]
    simp only [List.length_map, List.enum_length]
    have hbound := para_bound s.Content maxWords hsum htwo
    have := packParas_len_ge_two maxWords (splitPara s.Content) [] 0 []
      hbound (Nat.zero_le _) (by simp) (by rw [parasWordsRem_splitPara]; omega)
    simpa using this

/-- Witness for C6's amended theorem: two one-word paragraphs pack into
one chunk at `maxWords = 2` and split into two chunks at `maxWords = 1`. -/
theorem chunksection_boundary_counts_witness :
    (ChunkSection twoParaSec 2).length = 1 ∧ 2 ≤ (ChunkSection twoParaSec 1).length :=
  ⟨(chunksection_boundary_counts twoParaSec 2).1 (by decide),
   (chunksection_boundary_counts twoParaSec 1).2 (by decide) (by decide)⟩

/-! ### C7: blank chunks -/

/-- Counterexample to claim C7 as stated: `ChunkSection` itself does
return a blank chunk for a section whose content is only white space (the
`wordCount ≤ maxWords` branch emits the trimmed — empty — text); the
discarding happens later, in the ingestion loops. -/
theorem chunksection_emits_blank_chunk :
    ¬ (∀ c ∈ ChunkSection blankSec 600, trimSpace c.Text ≠ []) := by
  decide

theorem ingestChunksLoop_new_rows (embed : List Char → Option (List Int))
    (fp ia : List Char) (va : Option (List Char)) :
    ∀ (chunks : List ChunkData) (tx : Store) (res : IngestResult)
      (r : Store × IngestResult),
      ingestChunksLoop embed fp ia va chunks tx res = .ok r →
      ∀ row ∈ r.1.chunks, row ∈ tx.chunks ∨ trimSpace row.Text ≠ [] := by
  intro chunks
  induction chunks with
  | nil =>
    intro tx res r h row hrow
    rw [ingestChunksLoop] at h
    injection h with h
    rw [← h] at hrow
    exact Or.inl hrow
  | cons c rest ih =>
    intro tx res r h row hrow
    by_cases hc : trimSpace c.Text = []
    · rw [ingestChunksLoop, if_pos hc] at h
      exact ih tx _ r h row hrow
    · rw [ingestChunksLoop, if_neg hc] at h
      rcases he : embed c.Text with _ | emb
      · rw [he] at h
        cases h
      · rw [he] at h
        have := ih _ _ r h row hrow
        rcases this with hmem | hne
        · simp only [insertVecRow, insertChunkRow, List.mem_append,
            List.mem_singleton] at hmem
          rcases hmem with hmem | rfl
          · exact Or.inl hmem
          · exact Or.inr hc
        · exact Or.inr hne

theorem ingestSectionsLoop_new_rows (embed : List Char → Option (List Int))
    (fp ia va : List Char) :
    ∀ (sections : List Section) (tx : Store) (res : IngestResult)
      (r : Store × IngestResult),
      ingestSectionsLoop embed fp ia va sections tx res = .ok r →
      ∀ row ∈ r.1.chunks, row ∈ tx.chunks ∨ trimSpace row.Text ≠ [] := by
  intro sections
  induction sections with
  | nil =>
    intro tx res r h row hrow
    rw [ingestSectionsLoop] at h
    injection h with h
    rw [← h] at hrow
    exact Or.inl hrow
  | cons s rest ih =>
    intro tx res r h row hrow
    rw [ingestSectionsLoop] at h
    rcases hm : ingestChunksLoop embed fp ia
        (if (if s.ValidAt = [] then va else s.ValidAt) = [] then none
          else some (if s.ValidAt = [] then va else s.ValidAt))
        (ChunkSection s 600) tx
        { SectionsFound := res.SectionsFound,
          ChunksCreated := res.ChunksCreated + (ChunkSection s 600).length,
          SubChunksCreated := res.SubChunksCreated +
            (if 1 < (ChunkSection s 600).length
              then ((ChunkSection s 600).length : Int) - 1 else 0),
          DeletedChunks := res.DeletedChunks } with e | r'
    · rw [hm] at h
      cases h
    · rw [hm] at h
      have hrest := ih r'.1 r'.2 r h row hrow
      rcases hrest with hmem | hne
      · exact ingestChunksLoop_new_rows embed fp ia _ (ChunkSection s 600) tx _ r' hm
          row hmem
      · exact Or.inr hne

/-- Claim C7 as amended: `ChunkSection` can emit one blank chunk for a
blank section, but the ingestion write path skips every chunk whose
trimmed text is empty before inserting, so each chunk row a successful
`IngestFile` adds to the store has non-blank text. -/
theorem ingestfile_persisted_rows_nonblank (st : Store)
    (embed : List Char → Option (List Int)) (filePath : List Char)
    (sections : List Section) (validAt ingestedAt : List Char) (res : IngestResult)
    (hok : (IngestFileSections st embed filePath sections validAt ingestedAt).2 =
      .ok res)
    (row : ChunkRow)
    (hrow : row ∈ (IngestFileSections st embed filePath sections validAt ingestedAt).1.chunks)
    (hnew : row ∉ st.chunks) : trimSpace row.Text ≠ [] := by
  unfold IngestFileSections at hok hrow
  rcases hr : ingestFileRun st embed filePath sections validAt ingestedAt with e | r
  · rw [hr] at hok
    simp at hok
  · rw [hr] at hrow
    have hrun := hr
    unfold ingestFileRun at hrun
    have := ingestSectionsLoop_new_rows embed filePath ingestedAt validAt sections
      (IngestFileBegin st filePath).1 _ r hrun row hrow
    rcases this with hmem | hne
    · exfalso
      apply hnew
      have : (IngestFileBegin st filePath).1.chunks ⊆ st.chunks := by
        simp only [IngestFileBegin, deleteChunksForSource, deleteVecsForSource]
        exact fun x hx => List.mem_of_mem_filter hx
      exact this hmem
    · exact hne

/-- Witness for C7's amended theorem on a concrete successful ingest. -/
theorem ingestfile_persisted_rows_nonblank_witness :
    trimSpace helloRow.Text ≠ [] :=
  ingestfile_persisted_rows_nonblank exStoreS okEmbed ['S'] [exSectionHello] [] []
    { SectionsFound := 1, ChunksCreated := 1, SubChunksCreated := 0,
      DeletedChunks := 1 }
    rfl helloRow (by decide) (by decide)

/-! ### C1: failure semantics of the two batch-write paths -/

/-- Claim C1 as amended for `IngestFile`: whenever the write path ends in
an error — in particular when any embedding call fails — the persistent
store is exactly what it was before the call, because every mutation ran
inside the still-uncommitted transaction that the deferred `tx.Rollback()`
discards.  (The embeddings are not computed before the deletes, contrary
to the claim's mechanism: they are interleaved inside the transaction.) -/
theorem ingestfile_unchanged_on_error (st : Store)
    (embed : List Char → Option (List Int)) (filePath : List Char)
    (sections : List Section) (validAt ingestedAt : List Char) (e : String)
    (h : (IngestFileSections st embed filePath sections validAt ingestedAt).2 =
      .error e) :
    (IngestFileSections st embed filePath sections validAt ingestedAt).1 = st := by
  unfold IngestFileSections at h ⊢
  rcases hr : ingestFileRun st embed filePath sections validAt ingestedAt with e' | r
  · rfl
  · rw [hr] at h
    simp at h

/-- Witness for C1's amended theorem: a failing embedder aborts a concrete
`IngestFile` run and the store is untouched. -/
theorem ingestfile_unchanged_on_error_witness :
    (IngestFileSections exStoreS failEmbed ['S'] [exSectionHello] [] []).1 = exStoreS :=
  ingestfile_unchanged_on_error exStoreS failEmbed ['S'] [exSectionHello] [] []
    "embed failed" rfl

/-- Counterexample to claim C1 as stated: the watcher's `ingestBatch`
(`watch.go`) runs its `DELETE`s and `INSERT`s directly, with no
transaction, so when the (first) embedding call fails the operation
returns an error but the store has already changed — the source's
previous chunk and vector rows are gone. -/
theorem ingestbatch_mutates_on_embed_failure :
    (ingestBatchSections exStoreS failEmbed ['S'] [exSectionHello] []).2 =
      Except.error "embed failed" ∧
    (ingestBatchSections exStoreS failEmbed ['S'] [exSectionHello] []).1 ≠ exStoreS :=
  ⟨rfl, by decide⟩

/-! ### Generic insertion-sort lemmas and C8: `History` ordering -/

theorem mem_insertLe {α : Type} (le : α → α → Bool) (a x : α) (l : List α) :
    x ∈ insertLe le a l ↔ x = a ∨ x ∈ l := by
  induction l with
  | nil => simp [insertLe]
  | cons b t ih =>
    by_cases h : le a b <;> simp [insertLe, h, ih] <;> tauto

theorem pairwise_insertLe {α : Type} (le : α → α → Bool)
    (htot : ∀ a b, le a b = true ∨ le b a = true)
    (htr : ∀ a b c, le a b = true → le b c = true → le a c = true)
    (a : α) (l : List α) (h : l.Pairwise (fun x y => le x y = true)) :
    (insertLe le a l).Pairwise (fun x y => le x y = true) := by
  induction l with
  | nil => simp [insertLe]
  | cons b t ih =>
    obtain ⟨hb, ht⟩ := List.pairwise_cons.mp h
    by_cases hab : le a b = true
    · rw [insertLe, if_pos hab]
      refine List.pairwise_cons.mpr ⟨?_, h⟩
      intro y hy
      rcases List.mem_cons.mp hy with rfl | hy
      · exact hab
      · exact htr a b y hab (hb y hy)
    · rw [insertLe, if_neg hab]
      refine List.pairwise_cons.mpr ⟨?_, ih ht⟩
      intro y hy
      rcases (mem_insertLe le a y t).mp hy with heq | hy
      · subst heq
        rcases htot y b with h1 | h1
        · exact absurd h1 hab
        · exact h1
      · exact hb y hy

theorem pairwise_sortLe {α : Type} (le : α → α → Bool)
    (htot : ∀ a b, le a b = true ∨ le b a = true)
    (htr : ∀ a b c, le a b = true → le b c = true → le a c = true)
    (l : List α) : (sortLe le l).Pairwise (fun x y => le x y = true) := by
  induction l with
  | nil => simp [sortLe]
  | cons a t ih => exact pairwise_insertLe le htot htr a (sortLe le t) ih

theorem histLE_nn (a b : HistoryRow) (ha : a.ValidAt = none) (hb : b.ValidAt = none) :
    (histLE a b = true ↔ a.SectionSequence ≤ b.SectionSequence) := by
  simp [histLE, histNullCase, optLt, ha, hb]

theorem histLE_ns (a b : HistoryRow) (t : List Char) (ha : a.ValidAt = none)
    (hb : b.ValidAt = some t) : histLE a b = true := by
  simp [histLE, histNullCase, ha, hb]

theorem histLE_sn (a b : HistoryRow) (s : List Char) (ha : a.ValidAt = some s)
    (hb : b.ValidAt = none) : histLE a b = false := by
  simp [histLE, histNullCase, optLt, ha, hb]

theorem histLE_ss (a b : HistoryRow) (s t : List Char) (ha : a.ValidAt = some s)
    (hb : b.ValidAt = some t) :
    (histLE a b = true ↔ s < t ∨ (s = t ∧ a.SectionSequence ≤ b.SectionSequence)) := by
  simp [histLE, histNullCase, optLt, ha, hb]

theorem histLE_total (a b : HistoryRow) : histLE a b = true ∨ histLE b a = true := by
  rcases ha : a.ValidAt with _ | s <;> rcases hb : b.ValidAt with _ | t
  · rcases Nat.le_total a.SectionSequence b.SectionSequence with h | h
    · exact Or.inl ((histLE_nn a b ha hb).mpr h)
    · exact Or.inr ((histLE_nn b a hb ha).mpr h)
  · exact Or.inl (histLE_ns a b t ha hb)
  · exact Or.inr (histLE_ns b a s hb ha)
  · rcases lt_trichotomy s t with h | h | h
    · exact Or.inl ((histLE_ss a b s t ha hb).mpr (Or.inl h))
    · rcases Nat.le_total a.SectionSequence b.SectionSequence with h2 | h2
      · exact Or.inl ((histLE_ss a b s t ha hb).mpr (Or.inr ⟨h, h2⟩))
      · exact Or.inr ((histLE_ss b a t s hb ha).mpr (Or.inr ⟨h.symm, h2⟩))
    · exact Or.inr ((histLE_ss b a t s hb ha).mpr (Or.inl h))

theorem histLE_trans (a b c : HistoryRow) (h1 : histLE a b = true)
    (h2 : histLE b c = true) : histLE a c = true := by
  rcases ha : a.ValidAt with _ | s <;> rcases hb : b.ValidAt with _ | t <;>
    rcases hc : c.ValidAt with _ | u
  · exact (histLE_nn a c ha hc).mpr
      (Nat.le_trans ((histLE_nn a b ha hb).mp h1) ((histLE_nn b c hb hc).mp h2))
  · exact histLE_ns a c u ha hc
  · exact absurd ((histLE_sn b c t hb hc) ▸ h2) (by simp)
  · exact histLE_ns a c u ha hc
  · exact absurd ((histLE_sn a b s ha hb) ▸ h1) (by simp)
  · exact absurd ((histLE_sn a b s ha hb) ▸ h1) (by simp)
  · exact absurd ((histLE_sn b c t hb hc) ▸ h2) (by simp)
  · rcases (histLE_ss a b s t ha hb).mp h1 with hl | ⟨he, hs1⟩
    · rcases (histLE_ss b c t u hb hc).mp h2 with hl2 | ⟨he2, -⟩
      · exact (histLE_ss a c s u ha hc).mpr (Or.inl (lt_trans hl hl2))
      · exact (histLE_ss a c s u ha hc).mpr (Or.inl (he2 ▸ hl))
    · rcases (histLE_ss b c t u hb hc).mp h2 with hl2 | ⟨he2, hs2⟩
      · exact (histLE_ss a c s u ha hc).mpr (Or.inl (he ▸ hl2))
      · exact (histLE_ss a c s u ha hc).mpr
          (Or.inr ⟨he.trans he2, Nat.le_trans hs1 hs2⟩)

theorem histLE_implies_claimOrder (a b : HistoryRow) (h : histLE a b = true) :
    historyClaimOrder a b := by
  rcases ha : a.ValidAt with _ | s <;> rcases hb : b.ValidAt with _ | t
  · simp only [historyClaimOrder, ha, hb]
    exact (histLE_nn a b ha hb).mp h
  · simp [historyClaimOrder, ha, hb]
  · exact absurd ((histLE_sn a b s ha hb) ▸ h) (by simp)
  · simp only [historyClaimOrder, ha, hb]
    exact (histLE_ss a b s t ha hb).mp h

/-! ### C9: alias resolution -/

theorem aliasLookup_acc (k : List Char) :
    ∀ (pairs : List (List Char × List (List Char))) (acc : Option (List (List Char))),
      pairs.foldl (fun a p => if p.1 = k then some p.2 else a) acc =
        match aliasLookup pairs k with
        | some v => some v
        | none => acc := by
  intro pairs
  induction pairs with
  | nil =>
    intro acc
    simp [aliasLookup]
  | cons p ps ih =>
    intro acc
    have hcons : aliasLookup (p :: ps) k =
        match aliasLookup ps k with
        | some v => some v
        | none => if p.1 = k then some p.2 else none := by
      rw [aliasLookup, List.foldl_cons]
      exact ih (if p.1 = k then some p.2 else none)
    rw [List.foldl_cons, ih (if p.1 = k then some p.2 else acc), hcons]
    rcases h : aliasLookup ps k with _ | v
    · by_cases hp : p.1 = k <;> simp [hp]
    · simp

theorem aliasLookup_cons (p : List Char × List (List Char))
    (ps : List (List Char × List (List Char))) (k : List Char) :
    aliasLookup (p :: ps) k =
      match aliasLookup ps k with
      | some v => some v
      | none => if p.1 = k then some p.2 else none := by
  rw [aliasLookup, List.foldl_cons]
  exact aliasLookup_acc k ps (if p.1 = k then some p.2 else none)

theorem aliasLookup_append (xs ys : List (List Char × List (List Char)))
    (k : List Char) :
    aliasLookup (xs ++ ys) k =
      match aliasLookup ys k with
      | some v => some v
      | none => aliasLookup xs k := by
  rw [aliasLookup, List.foldl_append]
  exact aliasLookup_acc k ys (aliasLookup xs k)

theorem aliasLookup_map_pairs (v : List (List Char)) (k : List Char) :
    ∀ ns : List (List Char),
      aliasLookup (ns.map (fun n => (lowerStr n, v))) k =
        if k ∈ ns.map lowerStr then some v else none := by
  intro ns
  induction ns with
  | nil => simp [aliasLookup]
  | cons n rest ih =>
    rw [List.map_cons, aliasLookup_cons, ih]
    by_cases hm : k ∈ rest.map lowerStr
    · simp [hm]
    · by_cases he : lowerStr n = k
      · simp [hm, he]
      · have he2 : ¬ k = lowerStr n := fun h => he h.symm
        simp [hm, he, he2]

theorem aliasLookup_pairsOfGroup (g : AliasGroup) (k : List Char) :
    aliasLookup (pairsOfGroup g) k =
      if k ∈ g.names.map lowerStr then some g.names else none :=
  aliasLookup_map_pairs g.names k g.names

theorem aliasLookup_flatMap_some (gs : List AliasGroup) (k : List Char)
    (v : List (List Char)) (h : aliasLookup (gs.flatMap pairsOfGroup) k = some v) :
    ∃ g ∈ gs, k ∈ g.names.map lowerStr ∧ v = g.names := by
  induction gs with
  | nil => simp [aliasLookup] at h
  | cons g0 rest ih =>
    rw [List.flatMap_cons, aliasLookup_append] at h
    rcases hr : aliasLookup (rest.flatMap pairsOfGroup) k with _ | u
    · rw [hr] at h
      rw [aliasLookup_pairsOfGroup] at h
      by_cases hm : k ∈ g0.names.map lowerStr
      · rw [if_pos hm] at h
        exact ⟨g0, by simp, hm, (Option.some.injEq _ _).mp h.symm⟩
      · rw [if_neg hm] at h
        cases h
    · rw [hr] at h
      obtain ⟨g, hg, hk, hv⟩ := ih (hr.trans h)
      exact ⟨g, by simp [hg], hk, hv⟩

theorem aliasLookup_flatMap_none (gs : List AliasGroup) (k : List Char)
    (h : aliasLookup (gs.flatMap pairsOfGroup) k = none) :
    ∀ g ∈ gs, k ∉ g.names.map lowerStr := by
  induction gs with
  | nil => simp
  | cons g0 rest ih =>
    rw [List.flatMap_cons, aliasLookup_append] at h
    rcases hr : aliasLookup (rest.flatMap pairsOfGroup) k with _ | u
    · rw [hr] at h
      rw [aliasLookup_pairsOfGroup] at h
      intro g hg
      rcases List.mem_cons.mp hg with rfl | hg
      · intro hm
        rw [if_pos hm] at h
        cases h
      · exact ih hr g hg
    · rw [hr] at h
      cases h

/-- Claim C9 as amended: resolving any member name of an alias group, in
any letter case, returns the full name list of the *last-processed* group
containing that lower-cased name — later groups' map writes win, so a
name in exactly one group resolves to that group's list; the group's
`key` left of `=` is itself resolvable only when it is also one of the
member names, because `loadAliasesFromEnv` never writes the key into the
map; and an entity belonging to no group resolves to the singleton
containing just that entity.  The last group containing the name is the
`g` of any decomposition `pre ++ g :: post` of the parsed groups in which
no group of `post` contains the name. -/
theorem alias_member_resolution (env entity : List Char) :
    (∀ (pre post : List AliasGroup) (g : AliasGroup),
      parseAliasGroups env = pre ++ g :: post →
      lowerStr (trimSpace entity) ∈ g.names.map lowerStr →
      (∀ g' ∈ post, lowerStr (trimSpace entity) ∉ g'.names.map lowerStr) →
      resolveAliases env entity = g.names) ∧
    ((∀ g ∈ parseAliasGroups env,
        lowerStr (trimSpace entity) ∉ g.names.map lowerStr) →
      resolveAliases env entity = [entity]) := by
  constructor
  · intro pre post g hdecomp hk hpost
    have hnone :
        aliasLookup (post.flatMap pairsOfGroup) (lowerStr (trimSpace entity)) =
          none := by
      rcases hl : aliasLookup (post.flatMap pairsOfGroup)
          (lowerStr (trimSpace entity)) with _ | v
      · rfl
      · obtain ⟨g', hg', hk', -⟩ := aliasLookup_flatMap_some post _ v hl
        exact absurd hk' (hpost g' hg')
    have hinner :
        aliasLookup (pairsOfGroup g ++ post.flatMap pairsOfGroup)
          (lowerStr (trimSpace entity)) = some g.names := by
      rw [aliasLookup_append, hnone]
      show aliasLookup (pairsOfGroup g) (lowerStr (trimSpace entity)) = some g.names
      rw [aliasLookup_pairsOfGroup, if_pos hk]
    have houter :
        aliasLookup (aliasPairs env) (lowerStr (trimSpace entity)) = some g.names := by
      rw [aliasPairs, hdecomp, List.flatMap_append, List.flatMap_cons,
        aliasLookup_append, hinner]
    simp [resolveAliases, houter]
  · intro hnone
    rcases hl : aliasLookup (aliasPairs env) (lowerStr (trimSpace entity)) with _ | v
    · simp [resolveAliases, hl]
    · obtain ⟨g', hg', hk', -⟩ :=
        aliasLookup_flatMap_some (parseAliasGroups env) _ v hl
      exact absurd hk' (hnone g' hg')

/-- Witness for C9's amended theorem: in `alice=Alice,Bob`, resolving
`BOB` (upper case) returns the full group; and in `a=x,y;b=x,z`, where
`x` belongs to two groups, resolving `X` returns the *second* group's
list because the later write wins. -/
theorem alias_member_resolution_witness :
    resolveAliases "alice=Alice,Bob".toList "BOB".toList =
      ["Alice".toList, "Bob".toList] ∧
    resolveAliases "a=x,y;b=x,z".toList "X".toList = ["x".toList, "z".toList] :=
  ⟨(alias_member_resolution "alice=Alice,Bob".toList "BOB".toList).1 [] []
      { key := "alice".toList, names := ["Alice".toList, "Bob".toList] }
      (by decide) (by decide) (by decide),
   (alias_member_resolution "a=x,y;b=x,z".toList "X".toList).1
      [{ key := "a".toList, names := ["x".toList, "y".toList] }] []
      { key := "b".toList, names := ["x".toList, "z".toList] }
      (by decide) (by decide) (by decide)⟩

/-- Counterexample to claim C9 as stated: `loadAliasesFromEnv` never maps
the group key itself, so in `boss=alice,bob` the lower-case key `boss`
resolves to the singleton `[boss]`, not to the group's name list. -/
theorem alias_key_not_resolvable :
    parseAliasGroups "boss=alice,bob".toList =
      [{ key := "boss".toList, names := ["alice".toList, "bob".toList] }] ∧
    resolveAliases "boss=alice,bob".toList "boss".toList = ["boss".toList] := by
  decide

/-- Claim C8: for every entity and limit, the list `History` returns is
sorted with all timeless rows (`valid_at` null) first, then by ascending
`valid_at`, with ascending `section_sequence` breaking ties inside the
same date (and among the timeless rows). -/
theorem history_sorted (rows : List HistoryRow) (env entity : List Char)
    (limit : Int) : (History rows env entity limit).Pairwise historyClaimOrder := by
  have hsorted := pairwise_sortLe histLE histLE_total histLE_trans
    (rows.filter (fun r => (resolveAliases env entity).any (fun n => matchesName r.Text n)))
  have hclaim := hsorted.imp (fun h => histLE_implies_claimOrder _ _ h)
  simp only [History]
  exact hclaim.sublist (List.take_sublist _ _)

end Mneme
